import Mathlib

/-!
# longlocs: a verification development for `cmd/longlocs/main.go`

The program walks a directory tree, selects files by extension and reports
every line longer than a configured maximum.

Modelling conventions.

* Go strings that hold text (flag values, paths, file names) are sequences of
  Unicode characters, `List Char`.  The functions used on them
  (`strings.Split` on a comma, `strings.TrimSpace`, `filepath.Ext`,
  `filepath.Base`, `strings.HasPrefix`) only look for ASCII bytes or decode
  runes, so on well-formed UTF-8 they act on characters as they act on bytes.
* File contents are byte sequences, `List Nat`, each byte below 256.  Go's
  `len(text)` is the number of bytes of `text`.
* Go's `int` counters (`report[path]`, `totalCount`, `line`) are natural
  numbers: every increment consumes at least one byte of some file, so a
  counter stays far below `2^63`.  `maxLineLength` is an `Int` because the
  flag accepts negative values, which `main` rejects.
* The effects of `main` are made explicit: standard output is the list of
  printed violation records, the log channel is the final report and the
  total count, and the file system is a tree of directory entries together
  with the failures that its operations will produce.
-/

namespace Longlocs

/-! ## Text helpers from the Go standard library -/

/-- Text: a Go string holding well-formed UTF-8, as its characters. -/
abbrev Str := List Char

/-- Go `unicode.IsSpace`: the Latin-1 cases of the switch, then the
`White_Space` range table. -/
def isSpace (c : Char) : Bool :=
  let r := c.toNat
  if r ≤ 0xFF then
    r = 0x09 || r = 0x0A || r = 0x0B || r = 0x0C || r = 0x0D || r = 0x20 || r = 0x85 || r = 0xA0
  else
    r = 0x1680 || (0x2000 ≤ r && r ≤ 0x200A) || r = 0x2028 || r = 0x2029 || r = 0x202F
      || r = 0x205F || r = 0x3000

/-- Go `strings.TrimSpace`: the string without its leading and trailing white
space. -/
def TrimSpace (s : Str) : Str :=
  ((s.dropWhile isSpace).reverse.dropWhile isSpace).reverse

/-- Worker of `Split`: `cur` is the piece read so far. -/
def splitAux (sep : Char) : Str → Str → List Str
  | [], cur => [cur]
  | c :: rest, cur => if c = sep then cur :: splitAux sep rest [] else splitAux sep rest (cur ++ [c])

/-- Go `strings.Split(s, ",")` for a one-character separator: the pieces of
`s` between the separators; `n` separators give `n + 1` pieces. -/
def Split (s : Str) (sep : Char) : List Str := splitAux sep s []

/-- Go `strings.HasPrefix(s, ".")`. -/
def hasDotPrefix : Str → Bool
  | c :: _ => c = '.'
  | [] => false

/-- Loop of `filepath.Ext`, on the reversed path: walk back from the end until
a path separator; at the first dot return the suffix that starts there.  `acc`
is the part of the path already passed. -/
def extAux : Str → Str → Str
  | [], _ => []
  | c :: rest, acc =>
    if c = '/' then [] else if c = '.' then '.' :: acc else extAux rest (c :: acc)

/-- Go `filepath.Ext`: the suffix beginning at the final dot in the final
element of the path; empty if there is no dot. -/
def Ext (path : Str) : Str := extAux path.reverse []

/-- Strip trailing slashes (first loop of `filepath.Base`), on the reversed
path. -/
def dropSlashes : Str → Str
  | [] => []
  | c :: rest => if c = '/' then dropSlashes rest else c :: rest

/-- Second loop of `filepath.Base`, on the reversed path: the characters back
to the last separator. -/
def lastElem : Str → Str → Str
  | [], acc => acc
  | c :: rest, acc => if c = '/' then acc else lastElem rest (c :: acc)

/-- Go `filepath.Base` with `/` as the separator and no volume name. -/
def Base (path : Str) : Str :=
  if path = [] then ['.']
  else
    let e := lastElem (dropSlashes path.reverse) []
    if e = [] then ['/'] else e

/-- Go `path.Join(name, d1.Name())` as `fs.WalkDir` uses it: `name` is a
cleaned path (the root `.` or an earlier join) and the entry name is a valid
path element, so cleaning only removes the leading `./`. -/
def joinPath (name elem : Str) : Str :=
  if name = ['.'] then elem else name ++ '/' :: elem

/-! ## Extension set (main.go lines 41-45, 62-66) -/

/-- Lines 41-45: split the `-ext` value on commas and trim every piece.  The
set of `set.FromSeq` is kept as the list of its members. -/
def extensionSet (fileExtensions : Str) : List Str :=
  (Split fileExtensions ',').map TrimSpace

/-- Lines 62-65: the extension of a path, without its leading dot. -/
def extension (path : Str) : Str :=
  let e := Ext path
  if hasDotPrefix e then e.tail else e

/-- Line 66: `extensionSet.Contains(extension)`. -/
def matchesExt (exts : List Str) (path : Str) : Bool :=
  decide (extension path ∈ exts)

/-! ## The line reader (`bufio.Scanner` with the default `ScanLines`) -/

/-- Failures of the file system and of the line reader. -/
inductive Err
  | notExist
  | permission
  | io
  | tooLong
  deriving DecidableEq, Repr

/-- Go `bufio.MaxScanTokenSize`: the largest buffer a default `Scanner`
allocates. -/
def MaxScanTokenSize : Nat := 64 * 1024

/-- Go `bufio.dropCR`: drop one trailing carriage return. -/
def dropCR (data : List Nat) : List Nat :=
  if data.getLast? = some 13 then data.dropLast else data

/-- The tokens for which `scanner.Scan()` returns true, in order, and the value
of `scanner.Err()` once `Scan` has returned false.  `cur` holds the bytes
buffered since the last token, none of them a newline.

* A newline ends the token: `ScanLines` returns `dropCR` of the bytes before it.
* Another byte is buffered.  When the buffer then holds `MaxScanTokenSize`
  bytes without a newline, the next `Scan` cannot grow it and stops with
  `ErrTooLong`.
* When the reader is exhausted (`io.EOF`, or the failure `readErr`), a
  non-empty rest is delivered as the last token; the failure is kept for
  `Err()`. -/
def scanAux (readErr : Option Err) : List Nat → List Nat → List (List Nat) × Option Err
  | [], cur => if cur = [] then ([], readErr) else ([dropCR cur], readErr)
  | b :: rest, cur =>
    if b = 10 then
      let r := scanAux readErr rest []
      (dropCR cur :: r.1, r.2)
    else if MaxScanTokenSize ≤ cur.length + 1 then ([], some Err.tooLong)
    else scanAux readErr rest (cur ++ [b])

/-- A `bufio.Scanner` run over a reader that delivers `bytes` and then ends
with `io.EOF` (`readErr = none`) or with a failure. -/
def scanLines (bytes : List Nat) (readErr : Option Err) : List (List Nat) × Option Err :=
  scanAux readErr bytes []

/-! ## The file system seen by `fs.WalkDir` -/

/-- A regular file: what `fileSystem.Open`, the reads and `file.Close` will
do. -/
structure File where
  /-- Failure of `fileSystem.Open`, if any. -/
  openErr : Option Err
  /-- Bytes that the reads deliver. -/
  bytes : List Nat
  /-- Failure that ends the reads in place of `io.EOF`, if any. -/
  readErr : Option Err
  /-- Failure of `file.Close`, if any. -/
  closeErr : Option Err
  deriving DecidableEq, Repr

/-- A directory entry.  `entries` and `readDirErr` are the two results of
`fs.ReadDir`: the entries it returns, in its order, and its failure, if any. -/
inductive Entry
  | file (name : Str) (f : File)
  | dir (name : Str) (readDirErr : Option Err) (entries : List Entry)

/-- Go `d.Name()`. -/
def Entry.name : Entry → Str
  | .file n _ => n
  | .dir n _ _ => n

/-- Go `d.IsDir()`. -/
def Entry.IsDir : Entry → Bool
  | .file _ _ => false
  | .dir _ _ _ => true

/-! ## The scan (main.go lines 50-87) -/

/-- One line printed by `fmt.Printf("%s:%d (%d chars) %s\n", ...)` (line 81),
as its four arguments. -/
structure Violation where
  path : Str
  line : Nat
  length : Nat
  /-- Empty, or a newline followed by the text of the line when verbose. -/
  content : List Nat
  deriving DecidableEq, Repr

/-- The Go map `report`, as its key/value pairs; every key occurs once. -/
abbrev Report := List (Str × Nat)

/-- Go `report[path]`: the stored count, zero for a missing key. -/
def Report.get : Report → Str → Nat
  | [], _ => 0
  | (q, n) :: r, p => if q = p then n else Report.get r p

/-- Go `report[path]++` (line 76): a missing key is created with count one. -/
def Report.incr : Report → Str → Report
  | [], p => [(p, 1)]
  | (q, n) :: r, p => if q = p then (q, n + 1) :: r else (q, n) :: Report.incr r p

/-- Keys of the map. -/
def Report.keys (r : Report) : List Str := r.map Prod.fst

/-- What the walk mutates: the map and standard output. -/
structure State where
  report : Report
  out : List Violation
  deriving DecidableEq, Repr

/-- Values of the flags after validation. -/
structure Config where
  extensionSet : List Str
  maxLineLength : Int
  verbose : Bool

/-- Lines 72-83: the loop over the lines the scanner delivers; `line` is the
loop counter. -/
def scanLoop (cfg : Config) (path : Str) : List (List Nat) → Nat → State → State
  | [], _, st => st
  | text :: rest, line, st =>
    let length := text.length
    let st1 : State :=
      if (length : Int) > cfg.maxLineLength then
        { report := st.report.incr path
          out := st.out ++ [⟨path, line, length, if cfg.verbose then 10 :: text else []⟩] }
      else st
    scanLoop cfg path rest (line + 1) st1

/-- Return value of the walk callback: `nil`, `fs.SkipDir` or another error. -/
inductive Signal
  | ok
  | skipDir
  | fail (e : Err)
  deriving DecidableEq, Repr

/-- Lines 52-87: the callback given to `fs.WalkDir`. -/
def callback (cfg : Config) (path : Str) (d : Entry) (err : Option Err) (st : State) :
    State × Signal :=
  match err with
  | some e => (st, Signal.fail e)
  | none =>
    if d.IsDir && Base path = ['.', 'g', 'i', 't'] then (st, Signal.skipDir)
    else if d.IsDir then (st, Signal.ok)
    else
      match d with
      | .dir _ _ _ => (st, Signal.ok)
      | .file _ f =>
        if matchesExt cfg.extensionSet path then
          match f.openErr with
          | some e => (st, Signal.fail e)
          | none =>
            let st1 := scanLoop cfg path (scanLines f.bytes f.readErr).1 1 st
            match f.closeErr with
            | some e => (st1, Signal.fail e)
            | none => (st1, Signal.ok)
        else (st, Signal.ok)

mutual
/-- Go `fs.walkDir`: visit an entry, then the entries of a directory. -/
def walkDir (cfg : Config) : Str → Entry → State → State × Signal
  | name, .file n f, st => callback cfg name (.file n f) none st
  | name, .dir n rerr entries, st =>
    match callback cfg name (.dir n rerr entries) none st with
    | (st1, Signal.skipDir) => (st1, Signal.ok)
    | (st1, Signal.fail e) => (st1, Signal.fail e)
    | (st1, Signal.ok) =>
      let second : State × Signal :=
        match rerr with
        | some e => callback cfg name (.dir n rerr entries) (some e) st1
        | none => (st1, Signal.ok)
      match second with
      | (st2, Signal.skipDir) => (st2, Signal.ok)
      | (st2, Signal.fail e2) => (st2, Signal.fail e2)
      | (st2, Signal.ok) => walkEntries cfg name entries st2
/-- The loop of `fs.walkDir` over the entries of the directory `name`. -/
def walkEntries (cfg : Config) : Str → List Entry → State → State × Signal
  | _, [], st => (st, Signal.ok)
  | name, d1 :: rest, st =>
    match walkDir cfg (joinPath name d1.name) d1 st with
    | (st1, Signal.skipDir) => (st1, Signal.ok)
    | (st1, Signal.fail e) => (st1, Signal.fail e)
    | (st1, Signal.ok) => walkEntries cfg name rest st1
end

/-- Go `fs.WalkDir(fileSystem, ".", fn)`: `root` is the result of the initial
`Stat`.  The result is the final state and the returned error. -/
def WalkDir (cfg : Config) (root : Except Err Entry) (st : State) : State × Option Err :=
  let r : State × Signal :=
    match root with
    | .error e => callback cfg ['.'] (.dir ['.'] none []) (some e) st
    | .ok d => walkDir cfg ['.'] d st
  match r with
  | (st1, Signal.fail e) => (st1, some e)
  | (st1, _) => (st1, none)

/-! ## `main` (lines 21-95) -/

/-- Values of the command-line flags. -/
structure Args where
  fileExtensions : Str
  maxLineLength : Int
  verbose : Bool

/-- What a run shows. -/
inductive Outcome
  /-- `log.Fatalln` before the walk: a message and exit status 1. -/
  | fatal (msg : String)
  /-- A run that reaches the end of `main`: the records printed on standard
  output, then the logged final report and total count. -/
  | done (stdout : List Violation) (finalReport : Report) (totalCount : Nat)
  deriving DecidableEq, Repr

/-- Lines 88-91: the sum of the map's values. -/
def totalCount (report : Report) : Nat :=
  report.foldl (fun total kv => total + kv.2) 0

/-- Lines 35-45: validation of the flags. -/
def configure (a : Args) : Except String Config :=
  if a.fileExtensions = [] then
    .error "Must supply one or more file extensions via '-ext' flag."
  else if a.maxLineLength < 0 then
    .error "Must supply a non-negative maximum line length via 'len' flag."
  else
    .ok { extensionSet := extensionSet a.fileExtensions
          maxLineLength := a.maxLineLength
          verbose := a.verbose }

/-- The program: `root` is the directory tree behind `os.DirFS(workingDirectory)`.
The result of `fs.WalkDir` is not used (line 52). -/
def main (a : Args) (root : Except Err Entry) : Outcome :=
  match configure a with
  | .error msg => Outcome.fatal msg
  | .ok cfg =>
    let st := (WalkDir cfg root ⟨[], []⟩).1
    Outcome.done st.out st.report (totalCount st.report)

/-! ## Vocabulary of the specification

Notions the claims speak of that are not functions of the program: the lines
of a file, characters, file names, paths beneath `.git`, well-formed trees. -/

/-- Worker of `fileLines`: `cur` is the line read so far. -/
def linesAux : List Nat → List Nat → List (List Nat)
  | [], cur => if cur = [] then [] else [cur]
  | b :: rest, cur => if b = 10 then cur :: linesAux rest [] else linesAux rest (cur ++ [b])

/-- The lines of a file, terminators excluded: every run of bytes ended by a
newline, and a non-empty rest after the last newline. -/
def fileLines (bytes : List Nat) : List (List Nat) := linesAux bytes []

/-- The records the loop of lines 72-83 prints for the delivered lines `toks`,
the first of which has number `line`. -/
def lineRecords (cfg : Config) (path : Str) : List (List Nat) → Nat → List Violation
  | [], _ => []
  | text :: rest, line =>
    (if (text.length : Int) > cfg.maxLineLength then
      [⟨path, line, text.length, if cfg.verbose then 10 :: text else []⟩]
    else []) ++ lineRecords cfg path rest (line + 1)

/-- Number of lines longer than the maximum. -/
def countLong (cfg : Config) (toks : List (List Nat)) : Nat :=
  toks.countP (fun text => decide ((text.length : Int) > cfg.maxLineLength))

/-- Number of characters of UTF-8 text: the bytes that do not continue a
character (those not of the form `10xxxxxx`). -/
def charCount (text : List Nat) : Nat :=
  text.countP (fun b => decide (¬ (128 ≤ b ∧ b < 192)))

/-- The final element of a path: the text after its last separator. -/
def fileName (path : Str) : Str :=
  (path.reverse.takeWhile (fun c => decide (c ≠ '/'))).reverse

/-- The name tested on line 56. -/
def dotGit : Str := ['.', 'g', 'i', 't']

/-- The elements of a slash-separated path. -/
def components (path : Str) : List Str := Split path '/'

/-- The path has a directory named `.git` above its final element. -/
def beneathGit (path : Str) : Prop := dotGit ∈ (components path).dropLast

/-- A valid element of an `io/fs` path, as `fs.ReadDir` returns them: not
empty, not `.` or `..`, without a slash. -/
def validName (n : Str) : Bool :=
  decide (n ≠ []) && decide (n ≠ ['.']) && decide (n ≠ ['.', '.']) && decide ('/' ∉ n)

mutual
/-- Every entry beneath this one has a valid name. -/
def validBelow : Entry → Bool
  | .file _ _ => true
  | .dir _ _ entries => validEntries entries
/-- These entries and all entries beneath them have valid names. -/
def validEntries : List Entry → Bool
  | [] => true
  | d :: rest => validName d.name && validBelow d && validEntries rest
end

/-- The tree behind the root has valid names. -/
def validRoot : Except Err Entry → Bool
  | .error _ => true
  | .ok d => validBelow d

mutual
/-- The entry at `path` with every directory visited under a path whose base
name is `.git` replaced by an empty, readable directory.  The root is visited
under the path `.` and is kept, whatever its name. -/
def pruneGit : Str → Entry → Entry
  | _, .file n f => .file n f
  | path, .dir n rerr entries =>
    if Base path = dotGit then .dir n none [] else .dir n rerr (pruneGitList path entries)
/-- The entries of the directory `path`, pruned. -/
def pruneGitList : Str → List Entry → List Entry
  | _, [] => []
  | path, d :: rest => pruneGit (joinPath path d.name) d :: pruneGitList path rest
end

/-- Every printed path and every key of the report satisfies `Q`. -/
def PathsIn (Q : Str → Prop) (st : State) : Prop :=
  (∀ v ∈ st.out, Q v.path) ∧ ∀ k ∈ st.report.keys, Q k

/-- The report is a map whose counts have all been incremented: no key occurs
twice and every stored count is at least one. -/
def WellFormed (st : State) : Prop :=
  st.report.keys.Nodup ∧ ∀ kv ∈ st.report, 1 ≤ kv.2

/-- The tree of scenario C, with one more file beneath `.git` whose extension
is in the set. -/
def scenarioC : Except Err Entry :=
  .ok (.dir [] none
    [.dir ".git".toList none
      [.file "config".toList ⟨none, List.replicate 500 120 ++ [10], none, none⟩,
       .file "hook.go".toList ⟨none, List.replicate 500 120 ++ [10], none, none⟩],
     .dir "src".toList none
      [.file "main.go".toList ⟨none, List.replicate 130 121 ++ [10], none, none⟩]])

/-! # Lemmas

## The report map -/

theorem Report.mem_keys_incr (r : Report) (p k : Str) :
    k ∈ (r.incr p).keys ↔ k = p ∨ k ∈ r.keys := by
  induction r with
  | nil => simp [Report.incr, Report.keys]
  | cons kv r ih =>
    obtain ⟨q, n⟩ := kv
    simp only [Report.keys] at ih
    by_cases h : q = p
    · subst h
      simp [Report.incr, Report.keys]
    · simp only [Report.incr, if_neg h, Report.keys, List.map_cons, List.mem_cons, ih]
      tauto

theorem Report.pos_incr (r : Report) (p : Str) (h : ∀ kv ∈ r, 1 ≤ kv.2) :
    ∀ kv ∈ r.incr p, 1 ≤ kv.2 := by
  induction r with
  | nil => simp [Report.incr]
  | cons kv r ih =>
    obtain ⟨q, n⟩ := kv
    have hr : ∀ kv ∈ r, 1 ≤ kv.2 := fun kv hkv => h kv (List.mem_cons_of_mem _ hkv)
    by_cases hq : q = p
    · simp only [Report.incr, if_pos hq, List.mem_cons]
      rintro kv (rfl | hkv)
      · simp
      · exact hr kv hkv
    · simp only [Report.incr, if_neg hq, List.mem_cons]
      rintro kv (rfl | hkv)
      · exact h (q, n) (List.mem_cons_self _ _)
      · exact ih hr kv hkv

theorem Report.nodup_incr (r : Report) (p : Str) (h : r.keys.Nodup) : (r.incr p).keys.Nodup := by
  induction r with
  | nil => simp [Report.incr, Report.keys]
  | cons kv r ih =>
    obtain ⟨q, n⟩ := kv
    simp only [Report.keys, List.map_cons, List.nodup_cons] at h
    by_cases hq : q = p
    · simpa [Report.incr, Report.keys, hq] using h
    · have ih2 := ih h.2
      have hmem := Report.mem_keys_incr r p q
      simp only [Report.incr, if_neg hq, Report.keys, List.map_cons, List.nodup_cons]
      simp only [Report.keys] at ih2 hmem
      refine ⟨?_, ih2⟩
      rw [hmem]
      rintro (h1 | h1)
      · exact hq h1
      · exact h.1 h1

theorem Report.get_incr_self (r : Report) (p : Str) : (r.incr p).get p = r.get p + 1 := by
  induction r with
  | nil => simp [Report.incr, Report.get]
  | cons kv r ih =>
    obtain ⟨q, n⟩ := kv
    by_cases h : q = p
    · simp [Report.incr, Report.get, h]
    · simp [Report.incr, Report.get, h, ih]

theorem Report.get_incr_other (r : Report) (p k : Str) (hk : k ≠ p) :
    (r.incr p).get k = r.get k := by
  induction r with
  | nil => simp [Report.incr, Report.get, Ne.symm hk]
  | cons kv r ih =>
    obtain ⟨q, n⟩ := kv
    by_cases h : q = p
    · subst h
      simp [Report.incr, Report.get, Ne.symm hk]
    · simp only [Report.incr, if_neg h, Report.get, ih]

theorem foldl_add_values (r : Report) (n : Nat) :
    r.foldl (fun total kv => total + kv.2) n = n + (r.map Prod.snd).sum := by
  induction r generalizing n with
  | nil => simp
  | cons kv r ih => simp [ih, Nat.add_assoc]

theorem totalCount_eq_sum (r : Report) : totalCount r = (r.map Prod.snd).sum := by
  simp [totalCount, foldl_add_values]

theorem sum_values_eq_zero_iff (r : Report) (h : ∀ kv ∈ r, 1 ≤ kv.2) :
    (r.map Prod.snd).sum = 0 ↔ r = [] := by
  cases r with
  | nil => simp
  | cons kv r =>
    have := h kv (List.mem_cons_self _ _)
    simp only [List.map_cons, List.sum_cons, reduceCtorEq, iff_false]
    omega

/-! ## The loop over the lines of a file -/

/-- One pass of the loop body: the state after a line of the given text. -/
theorem scanLoop_cons (cfg : Config) (path : Str) (text : List Nat) (rest : List (List Nat))
    (line : Nat) (st : State) :
    scanLoop cfg path (text :: rest) line st =
      scanLoop cfg path rest (line + 1)
        (if (text.length : Int) > cfg.maxLineLength then
          { report := st.report.incr path
            out := st.out ++ [⟨path, line, text.length, if cfg.verbose then 10 :: text else []⟩] }
        else st) := rfl

theorem scanLoop_pathsIn (Q : Str → Prop) (cfg : Config) (path : Str) (toks : List (List Nat))
    (line : Nat) (st : State) (hq : Q path) (h : PathsIn Q st) :
    PathsIn Q (scanLoop cfg path toks line st) := by
  induction toks generalizing line st with
  | nil => exact h
  | cons text rest ih =>
    rw [scanLoop_cons]
    apply ih
    split
    · refine ⟨?_, ?_⟩
      · intro v hv
        rcases List.mem_append.mp hv with hv | hv
        · exact h.1 v hv
        · rw [List.mem_singleton.mp hv]
          exact hq
      · intro k hk
        rcases (Report.mem_keys_incr _ _ _).mp hk with rfl | hk
        · exact hq
        · exact h.2 k hk
    · exact h

theorem scanLoop_wellFormed (cfg : Config) (path : Str) (toks : List (List Nat)) (line : Nat)
    (st : State) (h : WellFormed st) : WellFormed (scanLoop cfg path toks line st) := by
  induction toks generalizing line st with
  | nil => exact h
  | cons text rest ih =>
    rw [scanLoop_cons]
    apply ih
    split
    · exact ⟨Report.nodup_incr _ _ h.1, Report.pos_incr _ _ h.2⟩
    · exact h

theorem scanLoop_out (cfg : Config) (path : Str) (toks : List (List Nat)) (line : Nat)
    (st : State) :
    (scanLoop cfg path toks line st).out = st.out ++ lineRecords cfg path toks line := by
  induction toks generalizing line st with
  | nil => simp [scanLoop, lineRecords]
  | cons text rest ih =>
    rw [scanLoop_cons, ih, lineRecords]
    split <;> simp

theorem scanLoop_get (cfg : Config) (path : Str) (toks : List (List Nat)) (line : Nat)
    (st : State) :
    (scanLoop cfg path toks line st).report.get path = st.report.get path + countLong cfg toks := by
  induction toks generalizing line st with
  | nil => simp [scanLoop, countLong]
  | cons text rest ih =>
    rw [scanLoop_cons, ih]
    by_cases h : (text.length : Int) > cfg.maxLineLength
    · simp only [h, if_true, Report.get_incr_self, countLong, List.countP_cons, decide_True]
      omega
    · simp only [h, if_false, countLong, List.countP_cons, decide_False]
      simp

/-- The records of one scan: each carries the number of a delivered line that
is longer than the maximum, and the numbers increase. -/
theorem lineRecords_spec (cfg : Config) (path : Str) (toks : List (List Nat)) (line : Nat) :
    (∀ v ∈ lineRecords cfg path toks line,
      v.path = path ∧ line ≤ v.line ∧
        ∃ text, toks[v.line - line]? = some text ∧ v.length = text.length ∧
          (text.length : Int) > cfg.maxLineLength ∧
          v.content = if cfg.verbose then 10 :: text else []) ∧
    (lineRecords cfg path toks line).Pairwise (fun v w => v.line < w.line) := by
  induction toks generalizing line with
  | nil => simp [lineRecords]
  | cons text rest ih =>
    obtain ⟨ih1, ih2⟩ := ih (line + 1)
    have hrest : ∀ v ∈ lineRecords cfg path rest (line + 1),
        v.path = path ∧ line ≤ v.line ∧
          ∃ t, (text :: rest)[v.line - line]? = some t ∧ v.length = t.length ∧
            (t.length : Int) > cfg.maxLineLength ∧
            v.content = if cfg.verbose then 10 :: t else [] := by
      intro v hv
      obtain ⟨hp, hl, t, ht, hrest⟩ := ih1 v hv
      refine ⟨hp, by omega, t, ?_, hrest⟩
      have : v.line - line = (v.line - (line + 1)) + 1 := by omega
      rw [this, List.getElem?_cons_succ]
      exact ht
    rw [lineRecords]
    constructor
    · intro v hv
      rcases List.mem_append.mp hv with hv | hv
      · split at hv
        · rename_i hlong
          rw [List.mem_singleton.mp hv]
          exact ⟨rfl, Nat.le_refl _, text, by simp, rfl, hlong, rfl⟩
        · simp at hv
      · exact hrest v hv
    · rw [List.pairwise_append]
      refine ⟨?_, ih2, ?_⟩
      · split <;> simp
      · intro v hv w hw
        split at hv
        · rw [List.mem_singleton.mp hv]
          have := (ih1 w hw).2.1
          simp only
          omega
        · simp at hv

/-! ## The line reader -/

/-- The delivered lines are the first lines of the file, each without its
trailing carriage return. -/
theorem scanAux_delivers_first_lines (readErr : Option Err) (bytes cur : List Nat) :
    (scanAux readErr bytes cur).1 <+: (linesAux bytes cur).map dropCR := by
  induction bytes generalizing cur with
  | nil =>
    simp only [scanAux, linesAux]
    split <;> simp
  | cons b rest ih =>
    simp only [scanAux, linesAux]
    by_cases hb : b = 10
    · simp only [hb, if_true, List.map_cons]
      exact (List.prefix_cons_inj _).mpr (ih [])
    · simp only [hb, if_false]
      split
      · exact List.nil_prefix
      · exact ih _

/-- The line under construction is part of a line of the file. -/
theorem linesAux_cur (bytes cur : List Nat) (hcur : cur ≠ []) :
    ∃ l ∈ linesAux bytes cur, cur.length ≤ l.length := by
  induction bytes generalizing cur with
  | nil => exact ⟨cur, by simp [linesAux, hcur], Nat.le_refl _⟩
  | cons b rest ih =>
    simp only [linesAux]
    by_cases hb : b = 10
    · exact ⟨cur, by simp [hb], Nat.le_refl _⟩
    · simp only [hb, if_false]
      obtain ⟨l, hl, hlen⟩ := ih (cur ++ [b]) (by simp)
      exact ⟨l, hl, by simp at hlen; omega⟩

/-- When every line of the file fits the scanner's buffer, every line is
delivered and the scanner's error is the reader's. -/
theorem scanAux_complete (readErr : Option Err) (bytes cur : List Nat)
    (h : ∀ l ∈ linesAux bytes cur, l.length < MaxScanTokenSize) :
    scanAux readErr bytes cur = ((linesAux bytes cur).map dropCR, readErr) := by
  induction bytes generalizing cur with
  | nil =>
    simp only [scanAux, linesAux]
    split <;> simp
  | cons b rest ih =>
    simp only [scanAux, linesAux] at h ⊢
    by_cases hb : b = 10
    · simp only [hb, if_true, List.map_cons] at h ⊢
      rw [ih [] (fun l hl => h l (List.mem_cons_of_mem _ hl))]
    · simp only [hb, if_false] at h ⊢
      obtain ⟨l, hl, hlen⟩ := linesAux_cur rest (cur ++ [b]) (by simp)
      have hl2 := h l hl
      simp only [List.length_append, List.length_singleton] at hlen
      rw [if_neg (by omega)]
      exact ih _ h

/-- A run of bytes without a newline that fills the buffer makes the scanner
give up: nothing is delivered from there on. -/
theorem scanAux_tooLong (readErr : Option Err) (c n : Nat) (rest cur : List Nat) (hc : c ≠ 10)
    (hcur : cur.length < MaxScanTokenSize) (hn : MaxScanTokenSize ≤ cur.length + n) :
    scanAux readErr (List.replicate n c ++ rest) cur = ([], some Err.tooLong) := by
  induction n generalizing cur with
  | zero => omega
  | succ n ih =>
    simp only [List.replicate_succ, List.cons_append, scanAux, if_neg hc]
    by_cases hfull : MaxScanTokenSize ≤ cur.length + 1
    · rw [if_pos hfull]
    · rw [if_neg hfull]
      exact ih (cur ++ [c]) (by simp; omega) (by simp; omega)

theorem linesAux_replicate (c n : Nat) (rest cur : List Nat) (hc : c ≠ 10) :
    linesAux (List.replicate n c ++ rest) cur = linesAux rest (cur ++ List.replicate n c) := by
  induction n generalizing cur with
  | zero => simp
  | succ n ih =>
    rw [List.replicate_succ, List.cons_append, linesAux, if_neg hc, ih, List.append_assoc,
      List.singleton_append]

/-! ## Text -/

theorem TrimSpace_head (s : Str) (c : Char) (h : (TrimSpace s).head? = some c) :
    isSpace c = false := by
  have hpre : TrimSpace s <+: s.dropWhile isSpace := by
    have := @List.rdropWhile_prefix _ isSpace (s.dropWhile isSpace)
    simpa [TrimSpace, List.rdropWhile] using this
  obtain ⟨more, hmore⟩ := hpre
  cases ht : TrimSpace s with
  | nil => rw [ht] at h; exact Option.noConfusion h
  | cons d r =>
    rw [ht] at h hmore
    simp only [List.head?_cons, Option.some.injEq] at h
    subst h
    have := List.head?_dropWhile_not isSpace s
    rw [← hmore] at this
    simpa using this

theorem TrimSpace_last (s : Str) (c : Char) (h : (TrimSpace s).getLast? = some c) :
    isSpace c = false := by
  unfold TrimSpace at h
  rw [List.getLast?_reverse] at h
  have := List.head?_dropWhile_not isSpace (s.dropWhile isSpace).reverse
  rw [h] at this
  exact this

/-- The value of `filepath.Ext` is empty or a dot followed by text without a
dot. -/
theorem extAux_spec (l acc : Str) (hacc : '.' ∉ acc) :
    extAux l acc = [] ∨ ∃ e, '.' ∉ e ∧ extAux l acc = '.' :: e := by
  induction l generalizing acc with
  | nil => exact Or.inl rfl
  | cons c rest ih =>
    simp only [extAux]
    by_cases h1 : c = '/'
    · exact Or.inl (by simp [h1])
    · by_cases h2 : c = '.'
      · exact Or.inr ⟨acc, hacc, by simp [h2]⟩
      · simp only [h1, h2, if_false]
        exact ih (c :: acc) (by simp [hacc, Ne.symm h2])

/-- The extension compared with the set holds no dot. -/
theorem extension_no_dot (path : Str) : '.' ∉ extension path := by
  unfold extension Ext
  rcases extAux_spec path.reverse [] (by simp) with h | ⟨e, he, h⟩
  · rw [h]
    simp [hasDotPrefix]
  · rw [h]
    simpa [hasDotPrefix] using he

theorem extAux_no_dot (l acc : Str)
    (h : '.' ∉ l.takeWhile (fun c => decide (c ≠ '/'))) : extAux l acc = [] := by
  induction l generalizing acc with
  | nil => rfl
  | cons c rest ih =>
    simp only [extAux]
    by_cases h1 : c = '/'
    · simp [h1]
    · have h2 : c ≠ '.' := by
        intro hc
        apply h
        simp [List.takeWhile_cons, h1, hc]
      simp only [h1, h2, if_false]
      apply ih
      intro hmem
      apply h
      simp only [List.takeWhile_cons, h1, ne_eq, not_false_eq_true, decide_True, if_true]
      exact List.mem_cons_of_mem _ hmem

/-- A name without a dot, or ending in a dot, has the empty extension. -/
theorem extension_nil_of_no_ext (path : Str)
    (h : '.' ∉ fileName path ∨ (fileName path).getLast? = some '.') : extension path = [] := by
  unfold fileName at h
  rcases h with h | h
  · have : Ext path = [] := extAux_no_dot path.reverse [] (by simpa using h)
    simp [extension, this, hasDotPrefix]
  · rw [List.getLast?_reverse] at h
    cases hr : path.reverse with
    | nil => rw [hr] at h; simp at h
    | cons c rest =>
      rw [hr] at h
      by_cases h1 : c = '/'
      · simp [List.takeWhile_cons, h1] at h
      · simp only [List.takeWhile_cons, h1, ne_eq, not_false_eq_true, decide_True, if_true,
          List.head?_cons, Option.some.injEq] at h
        have : Ext path = ['.'] := by
          unfold Ext
          rw [hr]
          simp [extAux, h]
        simp [extension, this, hasDotPrefix]

theorem splitAux_append_sep (sep : Char) (a b cur : Str) :
    splitAux sep (a ++ sep :: b) cur = splitAux sep a cur ++ splitAux sep b [] := by
  induction a generalizing cur with
  | nil => simp [splitAux]
  | cons c r ih =>
    by_cases h : c = sep
    · simp [splitAux, h, ih]
    · simp [splitAux, h, ih]

theorem splitAux_no_sep (sep : Char) (l cur : Str) (h : sep ∉ l) :
    splitAux sep l cur = [cur ++ l] := by
  induction l generalizing cur with
  | nil => simp [splitAux]
  | cons c r ih =>
    have hc : c ≠ sep := fun hc => h (by simp [hc])
    have hr : sep ∉ r := fun hr => h (List.mem_cons_of_mem _ hr)
    simp [splitAux, hc, ih _ hr]

theorem validName_spec (n : Str) (h : validName n = true) : n ≠ [] ∧ '/' ∉ n := by
  simp only [validName, Bool.and_eq_true, decide_eq_true_eq] at h
  exact ⟨h.1.1.1, h.2⟩

theorem components_join (name n : Str) (hn : validName n = true) :
    (components (joinPath name n)).dropLast = if name = ['.'] then [] else components name := by
  obtain ⟨-, hs⟩ := validName_spec n hn
  unfold components Split joinPath
  by_cases h : name = ['.']
  · rw [if_pos h, if_pos h, splitAux_no_sep _ _ _ hs]
    rfl
  · rw [if_neg h, if_neg h, splitAux_append_sep, splitAux_no_sep _ n _ hs, List.nil_append,
      List.dropLast_concat]

theorem components_join_mem (name n : Str) (hn : validName n = true) (c : Str)
    (hc : c ∈ components (joinPath name n)) : c = n ∨ c ∈ components name := by
  obtain ⟨-, hs⟩ := validName_spec n hn
  unfold components Split joinPath at *
  by_cases h : name = ['.']
  · rw [if_pos h, splitAux_no_sep _ _ _ hs] at hc
    simp at hc
    exact Or.inl hc
  · rw [if_neg h, splitAux_append_sep, splitAux_no_sep _ n _ hs, List.nil_append] at hc
    rcases List.mem_append.mp hc with hc | hc
    · exact Or.inr hc
    · exact Or.inl (List.mem_singleton.mp hc)

theorem lastElem_append (l x acc : Str) (hl : '/' ∉ l) (hx : x = [] ∨ x.head? = some '/') :
    lastElem (l ++ x) acc = l.reverse ++ acc := by
  induction l generalizing acc with
  | nil =>
    rcases hx with rfl | hx
    · rfl
    · cases x with
      | nil => rfl
      | cons c r =>
        simp only [List.head?_cons, Option.some.injEq] at hx
        simp [lastElem, hx]
  | cons c r ih =>
    have hc : c ≠ '/' := fun hc => hl (by simp [hc])
    have hr : '/' ∉ r := fun hr => hl (List.mem_cons_of_mem _ hr)
    simp [lastElem, hc, ih _ hr]

/-- The base name of the path of a directory entry is the entry's name. -/
theorem Base_join (name n : Str) (hn : validName n = true) : Base (joinPath name n) = n := by
  obtain ⟨hne, hs⟩ := validName_spec n hn
  have hrev : '/' ∉ n.reverse := by simpa using hs
  have key : ∀ x : Str, (x = [] ∨ x.head? = some '/') → Base (x.reverse ++ n) = n := by
    intro x hx
    have hx2 : (x = [] ∨ x.head? = some '/') := hx
    unfold Base
    have hne2 : x.reverse ++ n ≠ [] := by simp [hne]
    rw [if_neg hne2]
    have hrv : (x.reverse ++ n).reverse = n.reverse ++ x := by simp
    rw [hrv]
    have hds : dropSlashes (n.reverse ++ x) = n.reverse ++ x := by
      cases hr : n.reverse with
      | nil => exact absurd (List.reverse_eq_nil_iff.mp hr) hne
      | cons c r =>
        have hc : c ≠ '/' := fun hc => hrev (by rw [hr]; simp [hc])
        simp [dropSlashes, hc]
    simp only [hds, lastElem_append _ _ _ hrev hx2, List.reverse_reverse, List.append_nil, hne,
      if_false]
  unfold joinPath
  by_cases h : name = ['.']
  · rw [if_pos h]
    simpa using key [] (Or.inl rfl)
  · rw [if_neg h]
    have := key ('/' :: name.reverse) (Or.inr rfl)
    simpa using this

/-! ## The callback and the walk -/

theorem callback_some (cfg : Config) (path : Str) (d : Entry) (e : Err) (st : State) :
    callback cfg path d (some e) st = (st, Signal.fail e) := rfl

theorem callback_dir (cfg : Config) (name n : Str) (rerr : Option Err) (es : List Entry)
    (st : State) :
    callback cfg name (Entry.dir n rerr es) none st =
      (st, if Base name = dotGit then Signal.skipDir else Signal.ok) := by
  simp only [callback, Entry.IsDir, Bool.true_and, dotGit]
  by_cases h : Base name = ['.', 'g', 'i', 't']
  · simp [h]
  · simp [h]

theorem callback_file (cfg : Config) (path n : Str) (f : File) (st : State)
    (hm : matchesExt cfg.extensionSet path = true) (ho : f.openErr = none) :
    callback cfg path (Entry.file n f) none st =
      (scanLoop cfg path (scanLines f.bytes f.readErr).1 1 st,
        match f.closeErr with
        | some e => Signal.fail e
        | none => Signal.ok) := by
  simp only [callback, Entry.IsDir, Bool.false_and, hm, ho]
  cases f.closeErr <;> simp

theorem callback_file_skip (cfg : Config) (path n : Str) (f : File) (st : State)
    (h : matchesExt cfg.extensionSet path = false ∨ f.openErr ≠ none) :
    (callback cfg path (Entry.file n f) none st).1 = st := by
  simp only [callback, Entry.IsDir, Bool.false_and]
  rcases h with h | h
  · simp [h]
  · cases ho : f.openErr with
    | none => exact absurd ho h
    | some e =>
      simp only
      by_cases hm : matchesExt cfg.extensionSet path = true
      · rw [if_pos hm]
        simp
      · rw [if_neg hm]
        simp

theorem callback_file_pathsIn (Q : Str → Prop) (cfg : Config) (path n : Str) (f : File)
    (st : State) (hq : Q path) (h : PathsIn Q st) :
    PathsIn Q (callback cfg path (Entry.file n f) none st).1 := by
  by_cases hm : matchesExt cfg.extensionSet path = true ∧ f.openErr = none
  · rw [callback_file cfg path n f st hm.1 hm.2]
    exact scanLoop_pathsIn Q cfg path _ 1 st hq h
  · rw [callback_file_skip cfg path n f st]
    · exact h
    · by_cases hm1 : matchesExt cfg.extensionSet path = true
      · exact Or.inr (fun ho => hm ⟨hm1, ho⟩)
      · exact Or.inl (by simpa using hm1)

/-- A property of the state that every scan of a matching file keeps is kept
by the callback. -/
theorem callback_preserves (cfg : Config) (P : State → Prop)
    (hscan : ∀ path toks line st, matchesExt cfg.extensionSet path = true → P st →
      P (scanLoop cfg path toks line st))
    (path : Str) (d : Entry) (err : Option Err) (st : State) (h : P st) :
    P (callback cfg path d err st).1 := by
  unfold callback
  cases err with
  | some e => exact h
  | none =>
    cases d with
    | dir n rerr es =>
      simp only [Entry.IsDir, Bool.true_and]
      split <;> exact h
    | file n f =>
      simp only [Entry.IsDir, Bool.false_and]
      by_cases hm : matchesExt cfg.extensionSet path = true
      · simp only [hm]
        cases f.openErr with
        | some e => exact h
        | none =>
          have := hscan path (scanLines f.bytes f.readErr).1 1 st hm h
          cases f.closeErr <;> simpa using this
      · simp only [hm]
        exact h

theorem walkDir_dir (cfg : Config) (name n : Str) (rerr : Option Err) (es : List Entry)
    (st : State) :
    walkDir cfg name (Entry.dir n rerr es) st =
      if Base name = dotGit then (st, Signal.ok)
      else match rerr with
        | some e => (st, Signal.fail e)
        | none => walkEntries cfg name es st := by
  rw [walkDir, callback_dir]
  by_cases h : Base name = dotGit
  · simp [h]
  · simp only [h, if_false]
    cases rerr with
    | some e => simp [callback_some]
    | none => simp only

mutual
/-- A property kept by every scan of a matching file is kept by `walkDir`. -/
theorem walkDir_preserves (cfg : Config) (P : State → Prop)
    (hscan : ∀ path toks line st, matchesExt cfg.extensionSet path = true → P st →
      P (scanLoop cfg path toks line st)) :
    ∀ (e : Entry) (name : Str) (st : State), P st → P (walkDir cfg name e st).1
  | .file n f, name, st, h => by
    rw [walkDir]
    exact callback_preserves cfg P hscan name _ none st h
  | .dir n rerr entries, name, st, h => by
    rw [walkDir]
    have h1 := callback_preserves cfg P hscan name (.dir n rerr entries) none st h
    rcases hc : callback cfg name (.dir n rerr entries) none st with ⟨st1, sig⟩
    rw [hc] at h1
    cases sig with
    | skipDir => exact h1
    | fail e => exact h1
    | ok =>
      simp only
      cases rerr with
      | some e => simpa only [callback_some] using h1
      | none => exact walkEntries_preserves cfg P hscan entries name st1 h1
/-- A property kept by every scan of a matching file is kept by
`walkEntries`. -/
theorem walkEntries_preserves (cfg : Config) (P : State → Prop)
    (hscan : ∀ path toks line st, matchesExt cfg.extensionSet path = true → P st →
      P (scanLoop cfg path toks line st)) :
    ∀ (es : List Entry) (name : Str) (st : State), P st → P (walkEntries cfg name es st).1
  | [], name, st, h => by
    rw [walkEntries]
    exact h
  | d1 :: rest, name, st, h => by
    rw [walkEntries]
    have h1 := walkDir_preserves cfg P hscan d1 (joinPath name d1.name) st h
    rcases hc : walkDir cfg (joinPath name d1.name) d1 st with ⟨st1, sig⟩
    rw [hc] at h1
    cases sig with
    | skipDir => exact h1
    | fail e => exact h1
    | ok => exact walkEntries_preserves cfg P hscan rest name st1 h1
end

theorem WalkDir_preserves (cfg : Config) (P : State → Prop)
    (hscan : ∀ path toks line st, matchesExt cfg.extensionSet path = true → P st →
      P (scanLoop cfg path toks line st))
    (root : Except Err Entry) (st : State) (h : P st) : P (WalkDir cfg root st).1 := by
  unfold WalkDir
  cases root with
  | error e =>
    have := callback_preserves cfg P hscan ['.'] (.dir ['.'] none []) (some e) st h
    simp only
    split <;> simp_all
  | ok d =>
    have := walkDir_preserves cfg P hscan d ['.'] st h
    simp only
    split <;> simp_all

mutual
/-- Below a directory without `.git` among the elements of its path, the walk
prints and counts only paths that are not beneath a `.git` directory. -/
theorem walkDir_noGit (cfg : Config) :
    ∀ (e : Entry) (name : Str) (st : State), validBelow e = true →
      (e.IsDir = false → ¬ beneathGit name) →
      (e.IsDir = true → Base name ≠ dotGit → dotGit ∉ components name) →
      PathsIn (fun p => ¬ beneathGit p) st →
      PathsIn (fun p => ¬ beneathGit p) (walkDir cfg name e st).1
  | .file n f, name, st, _, hfile, _, h => by
    rw [walkDir]
    exact callback_file_pathsIn _ cfg name n f st (hfile rfl) h
  | .dir n rerr entries, name, st, hv, _, hdir, h => by
    rw [walkDir_dir]
    by_cases hb : Base name = dotGit
    · rw [if_pos hb]
      exact h
    · rw [if_neg hb]
      cases rerr with
      | some e => exact h
      | none =>
        rw [validBelow] at hv
        exact walkEntries_noGit cfg entries name st hv (hdir rfl hb) h
/-- The loop over the entries of a directory without `.git` among the elements
of its path. -/
theorem walkEntries_noGit (cfg : Config) :
    ∀ (es : List Entry) (name : Str) (st : State), validEntries es = true →
      dotGit ∉ components name →
      PathsIn (fun p => ¬ beneathGit p) st →
      PathsIn (fun p => ¬ beneathGit p) (walkEntries cfg name es st).1
  | [], name, st, _, _, h => by
    rw [walkEntries]
    exact h
  | d1 :: rest, name, st, hv, hname, h => by
    rw [validEntries] at hv
    simp only [Bool.and_eq_true] at hv
    obtain ⟨⟨hn, hb⟩, hrest⟩ := hv
    rw [walkEntries]
    have h1 := walkDir_noGit cfg d1 (joinPath name d1.name) st hb
      (by
        intro _ hbg
        unfold beneathGit at hbg
        rw [components_join name d1.name hn] at hbg
        split at hbg
        · simp at hbg
        · exact hname hbg)
      (by
        intro _ hbase hmem
        rcases components_join_mem name d1.name hn dotGit hmem with heq | hmem
        · rw [Base_join name d1.name hn] at hbase
          exact hbase heq.symm
        · exact hname hmem)
      h
    rcases hc : walkDir cfg (joinPath name d1.name) d1 st with ⟨st1, sig⟩
    rw [hc] at h1
    cases sig with
    | skipDir => exact h1
    | fail e => exact h1
    | ok => exact walkEntries_noGit cfg rest name st1 hrest hname h1
end

mutual
/-- The walk of an entry does not depend on what lies beneath `.git`
directories. -/
theorem walkDir_pruneGit (cfg : Config) :
    ∀ (e : Entry) (name : Str) (st : State),
      walkDir cfg name (pruneGit name e) st = walkDir cfg name e st
  | .file n f, name, st => by
    rw [pruneGit]
  | .dir n rerr entries, name, st => by
    rw [pruneGit]
    by_cases hb : Base name = dotGit
    · rw [if_pos hb, walkDir_dir, walkDir_dir, if_pos hb, if_pos hb]
    · rw [if_neg hb, walkDir_dir, walkDir_dir, if_neg hb, if_neg hb]
      cases rerr with
      | some e => rfl
      | none => exact walkEntries_pruneGit cfg entries name st
/-- The loop over pruned entries is the loop over the entries. -/
theorem walkEntries_pruneGit (cfg : Config) :
    ∀ (es : List Entry) (name : Str) (st : State),
      walkEntries cfg name (pruneGitList name es) st = walkEntries cfg name es st
  | [], name, st => by
    rw [pruneGitList]
  | d1 :: rest, name, st => by
    have hname : (pruneGit (joinPath name d1.name) d1).name = d1.name := by
      cases d1 with
      | file n f => rw [pruneGit]
      | dir n rerr es =>
        rw [pruneGit]
        split <;> rfl
    rw [pruneGitList, walkEntries, walkEntries, hname, walkDir_pruneGit cfg d1]
    rcases walkDir cfg (joinPath name d1.name) d1 st with ⟨st1, sig⟩
    cases sig with
    | skipDir => rfl
    | fail e => rfl
    | ok => exact walkEntries_pruneGit cfg rest name st1
end

/-! ## Runs of `main` -/

theorem main_done (a : Args) (root : Except Err Entry) (out : List Violation) (rep : Report)
    (total : Nat) (hrun : main a root = Outcome.done out rep total) :
    ∃ cfg, configure a = .ok cfg ∧ cfg.extensionSet = extensionSet a.fileExtensions ∧
      cfg.maxLineLength = a.maxLineLength ∧ cfg.verbose = a.verbose ∧ 0 ≤ cfg.maxLineLength ∧
      out = (WalkDir cfg root ⟨[], []⟩).1.out ∧ rep = (WalkDir cfg root ⟨[], []⟩).1.report ∧
      total = totalCount rep := by
  unfold main at hrun
  cases hc : configure a with
  | error msg => rw [hc] at hrun; simp at hrun
  | ok cfg =>
    rw [hc] at hrun
    simp only [Outcome.done.injEq] at hrun
    obtain ⟨h1, h2, h3⟩ := hrun
    refine ⟨cfg, rfl, ?_, ?_, ?_, ?_, h1.symm, h2.symm, ?_⟩
    · unfold configure at hc
      split at hc
      · simp at hc
      · split at hc
        · simp at hc
        · simp only [Except.ok.injEq] at hc
          rw [← hc]
    · unfold configure at hc
      split at hc
      · simp at hc
      · split at hc
        · simp at hc
        · simp only [Except.ok.injEq] at hc
          rw [← hc]
    · unfold configure at hc
      split at hc
      · simp at hc
      · split at hc
        · simp at hc
        · simp only [Except.ok.injEq] at hc
          rw [← hc]
    · unfold configure at hc
      split at hc
      · simp at hc
      · split at hc
        · simp at hc
        · rename_i hneg
          simp only [Except.ok.injEq] at hc
          rw [← hc]
          exact Int.not_lt.mp hneg
    · rw [← h3, h2]

/-- In a completed run every printed path and every key of the report has its
extension in the configured set. -/
theorem main_paths_match (a : Args) (root : Except Err Entry) (out : List Violation)
    (rep : Report) (total : Nat) (hrun : main a root = Outcome.done out rep total) :
    (∀ v ∈ out, extension v.path ∈ extensionSet a.fileExtensions) ∧
      ∀ k ∈ rep.keys, extension k ∈ extensionSet a.fileExtensions := by
  obtain ⟨cfg, -, hext, -, -, -, hout, hrep, -⟩ := main_done a root out rep total hrun
  have hinv : PathsIn (fun p => extension p ∈ cfg.extensionSet) (WalkDir cfg root ⟨[], []⟩).1 :=
    WalkDir_preserves cfg (PathsIn (fun p => extension p ∈ cfg.extensionSet))
      (fun path toks line st hm h =>
        scanLoop_pathsIn _ cfg path toks line st (by simpa [matchesExt] using hm) h)
      root _ ⟨by simp, by simp [Report.keys]⟩
  unfold PathsIn at hinv
  rw [hext, ← hout, ← hrep] at hinv
  exact hinv

/-- A file whose scan delivers no line leaves the run without records. -/
theorem main_single_file_no_lines (bytes : List Nat)
    (hs : scanLines bytes none = ([], some Err.tooLong)) :
    main ⟨"go".toList, 120, false⟩
        (.ok (.dir [] none [.file "a.go".toList ⟨none, bytes, none, none⟩]))
      = Outcome.done [] [] 0 := by
  have hm : matchesExt (extensionSet "go".toList) (joinPath ['.'] "a.go".toList) = true := by
    decide
  have hb : (Base ['.'] = ['.', 'g', 'i', 't']) = False := by
    simp +decide
  simp only [main, configure, WalkDir, walkDir, walkEntries, Entry.name, callback, Entry.IsDir,
    hm, hs, hb, scanLoop, totalCount]
  simp +decide

/-- Two files, the first of which delivers no line and leaves an error in the
scanner: the walk goes on to the second file and returns no error. -/
theorem walk_after_scanner_error (bytes : List Nat) (e : Err)
    (hs : scanLines bytes none = ([], some e)) :
    WalkDir ⟨["go".toList], 3, false⟩
        (.ok (.dir [] none
          [.file "a.go".toList ⟨none, bytes, none, none⟩,
           .file "b.go".toList ⟨none, [98, 98, 98, 98, 10], none, none⟩]))
        ⟨[], []⟩
      = (⟨[("b.go".toList, 1)], [⟨"b.go".toList, 1, 4, []⟩]⟩, none) := by
  have hm : matchesExt ["go".toList] (joinPath ['.'] "a.go".toList) = true := by decide
  have hm2 : matchesExt ["go".toList] (joinPath ['.'] "b.go".toList) = true := by decide
  have hb : (Base ['.'] = ['.', 'g', 'i', 't']) = False := by
    simp +decide
  have hs2 : scanLines [98, 98, 98, 98, 10] none = ([[98, 98, 98, 98]], none) := by decide
  simp only [WalkDir, walkDir, walkEntries, Entry.name, callback, Entry.IsDir,
    hm, hm2, hs, hs2, hb, scanLoop]
  simp +decide [Report.incr]

/-- Failures the walk does propagate: a directory that cannot be read and a
matching file that cannot be opened stop the walk with their error and leave
the state as it is, and the loop over the entries stops at the first entry
that fails. -/
theorem walk_stops_at_failure (cfg : Config) :
    (∀ (name n : Str) (e : Err) (es : List Entry) (st : State), Base name ≠ dotGit →
      walkDir cfg name (Entry.dir n (some e) es) st = (st, Signal.fail e)) ∧
    (∀ (path n : Str) (f : File) (e : Err) (st : State),
      matchesExt cfg.extensionSet path = true → f.openErr = some e →
        walkDir cfg path (Entry.file n f) st = (st, Signal.fail e)) ∧
    (∀ (name : Str) (d : Entry) (rest : List Entry) (st st1 : State) (e : Err),
      walkDir cfg (joinPath name d.name) d st = (st1, Signal.fail e) →
        walkEntries cfg name (d :: rest) st = (st1, Signal.fail e)) ∧
    (∀ (e : Err) (st : State), WalkDir cfg (.error e) st = (st, some e)) := by
  refine ⟨?_, ?_, ?_, ?_⟩
  · intro name n e es st hb
    rw [walkDir_dir, if_neg hb]
  · intro path n f e st hm ho
    rw [walkDir]
    simp [callback, Entry.IsDir, hm, ho]
  · intro name d rest st st1 e h
    rw [walkEntries, h]
  · intro e st
    rfl

/-- For a file that opens, whose extension is in the set and whose lines all
fit the scanner's buffer, the scan prints one record per line longer than the
maximum and adds the number of such lines to the file's count. -/
theorem scan_counts_long_lines (cfg : Config) (path n : Str) (f : File) (st : State)
    (hm : matchesExt cfg.extensionSet path = true) (ho : f.openErr = none)
    (hfit : ∀ l ∈ fileLines f.bytes, l.length < MaxScanTokenSize) :
    (callback cfg path (Entry.file n f) none st).1.out =
        st.out ++ lineRecords cfg path ((fileLines f.bytes).map dropCR) 1 ∧
    (callback cfg path (Entry.file n f) none st).1.report.get path =
        st.report.get path + countLong cfg ((fileLines f.bytes).map dropCR) := by
  rw [callback_file cfg path n f st hm ho]
  have : scanLines f.bytes f.readErr = ((fileLines f.bytes).map dropCR, f.readErr) :=
    scanAux_complete f.readErr f.bytes [] hfit
  rw [this]
  exact ⟨scanLoop_out _ _ _ _ _, scanLoop_get _ _ _ _ _⟩

/-! # Claims -/

/-- C1, at a file the scanner cannot hold: `a.go` has a first line of 70000
bytes and a second line of 121 bytes; with the maximum 120 both lines are
longer than the maximum, yet the run prints no record and reports nothing. -/
theorem long_line_not_reported :
    fileLines (List.replicate 70000 97 ++ 10 :: (List.replicate 121 98 ++ [10]))
      = [List.replicate 70000 97, List.replicate 121 98] ∧
    main ⟨"go".toList, 120, false⟩
        (.ok (.dir [] none [.file "a.go".toList
          ⟨none, List.replicate 70000 97 ++ 10 :: (List.replicate 121 98 ++ [10]), none, none⟩]))
      = Outcome.done [] [] 0 := by
  constructor
  · unfold fileLines
    rw [linesAux_replicate 97 70000 _ _ (by decide), linesAux, if_pos rfl,
      linesAux_replicate 98 121 _ _ (by decide), linesAux, if_pos rfl, linesAux, if_pos rfl,
      List.nil_append, List.nil_append]
  · exact main_single_file_no_lines _
      (scanAux_tooLong none 97 70000 _ [] (by decide) (by decide) (by decide))

/-- C2: a file whose extension (the part of its name after the final dot,
compared exactly) is not in the configured extension set is skipped by the
callback without any effect, whatever its content, and in every completed
run no printed record carries its path and its path is not a key of the
report. -/
theorem unmatched_file_never_reported (a : Args) (root : Except Err Entry)
    (out : List Violation) (rep : Report) (total : Nat) (p : Str)
    (hrun : main a root = Outcome.done out rep total)
    (hp : extension p ∉ extensionSet a.fileExtensions) :
    (∀ v ∈ out, v.path ≠ p) ∧ p ∉ rep.keys ∧ rep.get p = 0 ∧
      ∀ (cfg : Config) (n : Str) (f : File) (st : State),
        cfg.extensionSet = extensionSet a.fileExtensions →
          callback cfg p (Entry.file n f) none st = (st, Signal.ok) := by
  obtain ⟨h1, h2⟩ := main_paths_match a root out rep total hrun
  have hkey : p ∉ rep.keys := fun hk => hp (h2 p hk)
  refine ⟨?_, hkey, ?_, ?_⟩
  · intro v hv hvp
    exact hp (hvp ▸ h1 v hv)
  · clear h1 h2 hrun
    induction rep with
    | nil => rfl
    | cons kv r ih =>
      obtain ⟨q, n⟩ := kv
      simp only [Report.keys, List.map_cons, List.mem_cons, not_or] at hkey
      simp only [Report.get]
      rw [if_neg (fun h => hkey.1 h.symm)]
      exact ih hkey.2
  · intro cfg2 n f st hcfg
    have : matchesExt cfg2.extensionSet p = false := by
      simp [matchesExt, hcfg, hp]
    simp [callback, Entry.IsDir, this]

/-- Scenario B (`b.txt` with a 200-byte line, extensions `go`): the report is
empty and the total is zero. -/
theorem unmatched_file_never_reported_witness :
    main ⟨"go".toList, 120, false⟩
        (.ok (.dir [] none [.file "b.txt".toList ⟨none, List.replicate 200 97 ++ [10], none, none⟩]))
      = Outcome.done [] [] 0 ∧
    extension "b.txt".toList ∉ extensionSet "go".toList ∧
    ((∀ v ∈ ([] : List Violation), v.path ≠ "b.txt".toList) ∧
      "b.txt".toList ∉ Report.keys [] ∧ Report.get [] "b.txt".toList = 0 ∧
      ∀ (cfg : Config) (n : Str) (f : File) (st : State),
        cfg.extensionSet = extensionSet "go".toList →
          callback cfg "b.txt".toList (Entry.file n f) none st = (st, Signal.ok)) :=
  ⟨by decide, by decide,
    unmatched_file_never_reported ⟨"go".toList, 120, false⟩
      (.ok (.dir [] none [.file "b.txt".toList ⟨none, List.replicate 200 97 ++ [10], none, none⟩]))
      [] [] 0 "b.txt".toList (by decide) (by decide)⟩

/-- C3, as stated, fails: the root of the walk is visited under the path `.`,
so a root directory that is itself named `.git` is not pruned, and `b.go`
beneath it is scanned and reported. -/
theorem git_root_is_scanned :
    Entry.name (.dir ".git".toList none
        [.file "b.go".toList ⟨none, [98, 98, 98, 98, 10], none, none⟩]) = dotGit ∧
    validRoot (.ok (.dir ".git".toList none
        [.file "b.go".toList ⟨none, [98, 98, 98, 98, 10], none, none⟩])) = true ∧
    main ⟨"go".toList, 3, false⟩
        (.ok (.dir ".git".toList none
          [.file "b.go".toList ⟨none, [98, 98, 98, 98, 10], none, none⟩]))
      = Outcome.done [⟨"b.go".toList, 1, 4, []⟩] [("b.go".toList, 1)] 1 := by
  decide

/-- C3, amended to directories below the root: in every completed run over a
tree with valid entry names, no printed record and no key of the report
carries a path, relative to the root, with a directory named `.git` above its
final element; a directory visited under a path whose base name is `.git` is
passed without any effect and the walk continues; and the walk of a tree is
the walk of the tree with every such directory emptied, so nothing beneath a
`.git` directory below the root is opened or scanned. -/
theorem git_subtree_never_scanned (a : Args) (root : Except Err Entry)
    (out : List Violation) (rep : Report) (total : Nat)
    (hvalid : validRoot root = true)
    (hrun : main a root = Outcome.done out rep total) :
    (∀ v ∈ out, dotGit ∉ (components v.path).dropLast) ∧
    (∀ k ∈ rep.keys, dotGit ∉ (components k).dropLast) ∧
    (∀ (cfg : Config) (name n : Str) (rerr : Option Err) (es : List Entry) (st : State),
      Base name = dotGit → walkDir cfg name (Entry.dir n rerr es) st = (st, Signal.ok)) ∧
    (∀ (cfg : Config) (st : State),
      WalkDir cfg (root.map (pruneGit ['.'])) st = WalkDir cfg root st) ∧
    main a (root.map (pruneGit ['.'])) = Outcome.done out rep total := by
  obtain ⟨cfg, hcfg, -, -, -, -, hout, hrep, -⟩ := main_done a root out rep total hrun
  have hprune : ∀ (cfg : Config) (st : State),
      WalkDir cfg (root.map (pruneGit ['.'])) st = WalkDir cfg root st := by
    intro cfg st
    cases root with
    | error e => rfl
    | ok d =>
      simp only [Except.map, WalkDir]
      rw [walkDir_pruneGit]
  have hinv : PathsIn (fun p => ¬ beneathGit p) (WalkDir cfg root ⟨[], []⟩).1 := by
    have h0 : PathsIn (fun p => ¬ beneathGit p) (⟨[], []⟩ : State) :=
      ⟨by simp, by simp [Report.keys]⟩
    cases root with
    | error e => exact h0
    | ok d =>
      have := walkDir_noGit cfg d ['.'] ⟨[], []⟩ hvalid
        (by intro _ hbg; simp +decide [beneathGit] at hbg)
        (by intro _ _; decide) h0
      simp only [WalkDir]
      split <;> simp_all
  unfold PathsIn beneathGit at hinv
  rw [← hout, ← hrep] at hinv
  refine ⟨hinv.1, hinv.2, ?_, hprune, ?_⟩
  · intro cfg name n rerr es st hb
    rw [walkDir_dir, if_pos hb]
  · rw [← hrun]
    unfold main
    cases configure a with
    | error msg => rfl
    | ok c => simp only [hprune]

/-- Scenario C: the report is `src/main.go: 1`. -/
theorem git_subtree_never_scanned_witness :
    validRoot scenarioC = true ∧
    main ⟨"go".toList, 120, false⟩ scenarioC
      = Outcome.done [⟨"src/main.go".toList, 1, 130, []⟩] [("src/main.go".toList, 1)] 1 ∧
    ((∀ v ∈ [(⟨"src/main.go".toList, 1, 130, []⟩ : Violation)],
        dotGit ∉ (components v.path).dropLast) ∧
    (∀ k ∈ Report.keys [("src/main.go".toList, 1)], dotGit ∉ (components k).dropLast) ∧
    (∀ (cfg : Config) (name n : Str) (rerr : Option Err) (es : List Entry) (st : State),
      Base name = dotGit → walkDir cfg name (Entry.dir n rerr es) st = (st, Signal.ok)) ∧
    (∀ (cfg : Config) (st : State),
      WalkDir cfg (scenarioC.map (pruneGit ['.'])) st = WalkDir cfg scenarioC st) ∧
    main ⟨"go".toList, 120, false⟩ (scenarioC.map (pruneGit ['.']))
      = Outcome.done [⟨"src/main.go".toList, 1, 130, []⟩] [("src/main.go".toList, 1)] 1) :=
  ⟨by decide, by decide,
    git_subtree_never_scanned ⟨"go".toList, 120, false⟩ scenarioC
      [⟨"src/main.go".toList, 1, 130, []⟩] [("src/main.go".toList, 1)] 1 (by decide) (by decide)⟩

/-- C4: in every completed run the total count is the sum of the values of
the report, the report holds every key once and every stored value is at
least one, and the total is zero exactly when the report has no keys. -/
theorem total_count_is_sum (a : Args) (root : Except Err Entry)
    (out : List Violation) (rep : Report) (total : Nat)
    (hrun : main a root = Outcome.done out rep total) :
    total = (rep.map Prod.snd).sum ∧ rep.keys.Nodup ∧ (∀ kv ∈ rep, 1 ≤ kv.2) ∧
      (total = 0 ↔ rep.keys = []) := by
  obtain ⟨cfg, -, -, -, -, -, -, hrep, htot⟩ := main_done a root out rep total hrun
  have hinv : WellFormed (WalkDir cfg root ⟨[], []⟩).1 :=
    WalkDir_preserves cfg WellFormed
      (fun path toks line st _ h => scanLoop_wellFormed cfg path toks line st h) root _
      ⟨by simp [Report.keys], by simp⟩
  unfold WellFormed at hinv
  rw [← hrep] at hinv
  refine ⟨by rw [htot, totalCount_eq_sum], hinv.1, hinv.2, ?_⟩
  rw [htot, totalCount_eq_sum, sum_values_eq_zero_iff rep hinv.2]
  simp [Report.keys]

/-- Scenario D: two files with two over-length lines each; the report assigns
two to each file and the total is four. -/
theorem total_count_is_sum_witness :
    main ⟨"go".toList, 2, false⟩
        (.ok (.dir [] none
          [.file "a.go".toList ⟨none, [97, 97, 97, 10, 97, 10, 98, 98, 98, 98, 10], none, none⟩,
           .file "b.go".toList ⟨none, [99, 99, 99, 10, 100, 100, 100], none, none⟩]))
      = Outcome.done
          [⟨"a.go".toList, 1, 3, []⟩, ⟨"a.go".toList, 3, 4, []⟩,
           ⟨"b.go".toList, 1, 3, []⟩, ⟨"b.go".toList, 2, 3, []⟩]
          [("a.go".toList, 2), ("b.go".toList, 2)] 4 ∧
    (4 = (([("a.go".toList, 2), ("b.go".toList, 2)] : Report).map Prod.snd).sum ∧
      (Report.keys [("a.go".toList, 2), ("b.go".toList, 2)]).Nodup ∧
      (∀ kv ∈ ([("a.go".toList, 2), ("b.go".toList, 2)] : Report), 1 ≤ kv.2) ∧
      (4 = 0 ↔ Report.keys [("a.go".toList, 2), ("b.go".toList, 2)] = [])) :=
  ⟨by decide,
    total_count_is_sum ⟨"go".toList, 2, false⟩
      (.ok (.dir [] none
        [.file "a.go".toList ⟨none, [97, 97, 97, 10, 97, 10, 98, 98, 98, 98, 10], none, none⟩,
         .file "b.go".toList ⟨none, [99, 99, 99, 10, 100, 100, 100], none, none⟩]))
      [⟨"a.go".toList, 1, 3, []⟩, ⟨"a.go".toList, 3, 4, []⟩,
       ⟨"b.go".toList, 1, 3, []⟩, ⟨"b.go".toList, 2, 3, []⟩]
      [("a.go".toList, 2), ("b.go".toList, 2)] 4 (by decide)⟩

/-- C5, at a run whose walk fails: `a.go` has one over-length line and `b.go`
cannot be opened; the walk returns the error, and `main` still emits the
report and the total count. -/
theorem report_emitted_after_failure :
    (WalkDir ⟨["go".toList], 3, false⟩
        (.ok (.dir [] none
          [.file "a.go".toList ⟨none, [97, 97, 97, 97, 10], none, none⟩,
           .file "b.go".toList ⟨some Err.permission, [], none, none⟩]))
        ⟨[], []⟩).2 = some Err.permission ∧
    main ⟨"go".toList, 3, false⟩
        (.ok (.dir [] none
          [.file "a.go".toList ⟨none, [97, 97, 97, 97, 10], none, none⟩,
           .file "b.go".toList ⟨some Err.permission, [], none, none⟩]))
      = Outcome.done [⟨"a.go".toList, 1, 4, []⟩] [("a.go".toList, 1)] 1 := by
  decide

/-- C6, at two read failures: when the scanner gives up on a line of 70000
bytes in `a.go`, and when the reads of `a.go` end with an I/O error, the walk
does not stop: it scans `b.go`, prints its record, and returns no error. -/
theorem read_failure_not_propagated :
    scanLines (List.replicate 70000 97) none = ([], some Err.tooLong) ∧
    WalkDir ⟨["go".toList], 3, false⟩
        (.ok (.dir [] none
          [.file "a.go".toList ⟨none, List.replicate 70000 97, none, none⟩,
           .file "b.go".toList ⟨none, [98, 98, 98, 98, 10], none, none⟩]))
        ⟨[], []⟩
      = (⟨[("b.go".toList, 1)], [⟨"b.go".toList, 1, 4, []⟩]⟩, none) ∧
    scanLines [97, 10] (some Err.io) = ([[97]], some Err.io) ∧
    WalkDir ⟨["go".toList], 3, false⟩
        (.ok (.dir [] none
          [.file "a.go".toList ⟨none, [97, 10], some Err.io, none⟩,
           .file "b.go".toList ⟨none, [98, 98, 98, 98, 10], none, none⟩]))
        ⟨[], []⟩
      = (⟨[("b.go".toList, 1)], [⟨"b.go".toList, 1, 4, []⟩]⟩, none) := by
  have h1 : scanLines (List.replicate 70000 97) none = ([], some Err.tooLong) := by
    have := scanAux_tooLong none 97 70000 [] [] (by decide) (by decide) (by decide)
    rwa [List.append_nil] at this
  exact ⟨h1, walk_after_scanner_error _ _ h1, by decide, by decide⟩

/-- C7, at a line with a two-byte character: `a.go` holds the one line `é`
(bytes C3 A9), one character.  With the maximum 1 the line is reported, with
length 2. -/
theorem length_counts_bytes :
    charCount [0xC3, 0xA9] = 1 ∧
    main ⟨"go".toList, 1, false⟩
        (.ok (.dir [] none [.file "a.go".toList ⟨none, [0xC3, 0xA9, 10], none, none⟩]))
      = Outcome.done [⟨"a.go".toList, 1, 2, []⟩] [("a.go".toList, 1)] 1 := by
  decide

/-- C8, as stated, fails: the token `.go` stays `.go` in the set, and a run
configured with `.go` selects no file where a run configured with `go` selects
`a.go`. -/
theorem leading_dot_not_stripped :
    extensionSet ".go".toList = [".go".toList] ∧
    main ⟨".go".toList, 3, false⟩
        (.ok (.dir [] none [.file "a.go".toList ⟨none, [97, 97, 97, 97, 10], none, none⟩]))
      = Outcome.done [] [] 0 ∧
    main ⟨"go".toList, 3, false⟩
        (.ok (.dir [] none [.file "a.go".toList ⟨none, [97, 97, 97, 97, 10], none, none⟩]))
      = Outcome.done [⟨"a.go".toList, 1, 4, []⟩] [("a.go".toList, 1)] 1 := by
  decide

/-- C8, amended: every member of the extension set is a trimmed token of the
list, so it has no leading and no trailing white space; a leading dot is kept,
and a member that starts with a dot is the extension of no path. -/
theorem extension_set_members_trimmed (raw m : Str) (hm : m ∈ extensionSet raw) :
    (∃ tok ∈ Split raw ',', m = TrimSpace tok) ∧
    (∀ c, m.head? = some c → isSpace c = false) ∧
    (∀ c, m.getLast? = some c → isSpace c = false) ∧
    (hasDotPrefix m = true → ∀ path, matchesExt [m] path = false) := by
  unfold extensionSet at hm
  obtain ⟨tok, htok, rfl⟩ := List.mem_map.mp hm
  refine ⟨⟨tok, htok, rfl⟩, TrimSpace_head tok, TrimSpace_last tok, ?_⟩
  intro hdot path
  have hnd := extension_no_dot path
  have hne : extension path ≠ TrimSpace tok := by
    intro heq
    rw [heq] at hnd
    cases ht : TrimSpace tok with
    | nil => rw [ht] at hdot; simp [hasDotPrefix] at hdot
    | cons c r =>
      rw [ht] at hdot hnd
      simp only [hasDotPrefix, decide_eq_true_eq] at hdot
      exact hnd (by simp [hdot])
  simp [matchesExt, hne]

/-- The list ` .go ,js`: its first token is trimmed to `.go`, dot kept. -/
theorem extension_set_members_trimmed_witness :
    ".go".toList ∈ extensionSet " .go ,js".toList ∧
    ((∃ tok ∈ Split " .go ,js".toList ',', ".go".toList = TrimSpace tok) ∧
      (∀ c, ".go".toList.head? = some c → isSpace c = false) ∧
      (∀ c, ".go".toList.getLast? = some c → isSpace c = false) ∧
      (hasDotPrefix ".go".toList = true → ∀ path, matchesExt [".go".toList] path = false)) :=
  ⟨by decide, extension_set_members_trimmed " .go ,js".toList ".go".toList (by decide)⟩

/-- C9, as stated, fails: with the list `go,` (a trailing comma) the empty
string is a member of the set, and `Makefile`, a file with no extension, is
scanned and reported. -/
theorem trailing_comma_selects_no_extension :
    extensionSet "go,".toList = ["go".toList, []] ∧
    extension "Makefile".toList = [] ∧
    main ⟨"go,".toList, 3, false⟩
        (.ok (.dir [] none [.file "Makefile".toList ⟨none, [97, 97, 97, 97, 10], none, none⟩]))
      = Outcome.done [⟨"Makefile".toList, 1, 4, []⟩] [("Makefile".toList, 1)] 1 := by
  decide

/-- C9, amended: when no token of the list is empty after trimming, a path
whose final element has no dot or ends in a dot does not match the extension
set, and in every completed run no record carries it and it is not a key of
the report. -/
theorem no_extension_never_matches (a : Args) (root : Except Err Entry)
    (out : List Violation) (rep : Report) (total : Nat) (p : Str)
    (hrun : main a root = Outcome.done out rep total)
    (htok : ∀ tok ∈ Split a.fileExtensions ',', TrimSpace tok ≠ [])
    (hp : '.' ∉ fileName p ∨ (fileName p).getLast? = some '.') :
    matchesExt (extensionSet a.fileExtensions) p = false ∧
      (∀ v ∈ out, v.path ≠ p) ∧ p ∉ rep.keys := by
  have hext : extension p = [] := extension_nil_of_no_ext p hp
  have hnot : extension p ∉ extensionSet a.fileExtensions := by
    rw [hext]
    intro hmem
    obtain ⟨tok, ht, heq⟩ := List.mem_map.mp hmem
    exact htok tok ht heq
  obtain ⟨h1, h2⟩ := main_paths_match a root out rep total hrun
  refine ⟨by simp [matchesExt, hnot], ?_, fun hk => hnot (h2 p hk)⟩
  intro v hv hvp
  exact hnot (hvp ▸ h1 v hv)

/-- The list `go, js` has no empty token: `Makefile` is not scanned. -/
theorem no_extension_never_matches_witness :
    main ⟨"go, js".toList, 3, false⟩
        (.ok (.dir [] none [.file "Makefile".toList ⟨none, [97, 97, 97, 97, 10], none, none⟩]))
      = Outcome.done [] [] 0 ∧
    (∀ tok ∈ Split "go, js".toList ',', TrimSpace tok ≠ []) ∧
    ('.' ∉ fileName "Makefile".toList ∨ (fileName "Makefile".toList).getLast? = some '.') ∧
    (matchesExt (extensionSet "go, js".toList) "Makefile".toList = false ∧
      (∀ v ∈ ([] : List Violation), v.path ≠ "Makefile".toList) ∧
      "Makefile".toList ∉ Report.keys []) :=
  ⟨by decide, by decide, by decide,
    no_extension_never_matches ⟨"go, js".toList, 3, false⟩
      (.ok (.dir [] none [.file "Makefile".toList ⟨none, [97, 97, 97, 97, 10], none, none⟩]))
      [] [] 0 "Makefile".toList (by decide) (by decide) (by decide)⟩

/-- C10: the records printed for one file continue standard output, their
line numbers increase strictly, and each number is the 1-based position, among
the lines of the file, of a line whose length (without the terminator and a
trailing carriage return) is the printed length and exceeds the maximum. -/
theorem line_numbers_are_positions (cfg : Config) (path n : Str) (f : File) (st : State) :
    ∃ recs, (callback cfg path (Entry.file n f) none st).1.out = st.out ++ recs ∧
      recs.Pairwise (fun v w => v.line < w.line) ∧
      ∀ v ∈ recs, v.path = path ∧ 1 ≤ v.line ∧
        ∃ raw, (fileLines f.bytes)[v.line - 1]? = some raw ∧
          v.length = (dropCR raw).length ∧ (v.length : Int) > cfg.maxLineLength := by
  by_cases h : matchesExt cfg.extensionSet path = true ∧ f.openErr = none
  · obtain ⟨hm, ho⟩ := h
    refine ⟨lineRecords cfg path (scanLines f.bytes f.readErr).1 1, ?_, ?_, ?_⟩
    · rw [callback_file cfg path n f st hm ho, scanLoop_out]
    · exact (lineRecords_spec cfg path _ 1).2
    · intro v hv
      obtain ⟨hp, hl, text, ht, hlen, hlong, -⟩ := (lineRecords_spec cfg path _ 1).1 v hv
      refine ⟨hp, hl, ?_⟩
      obtain ⟨more, hmore⟩ := scanAux_delivers_first_lines f.readErr f.bytes []
      have hlt : v.line - 1 < (scanLines f.bytes f.readErr).1.length := by
        by_contra hge
        rw [List.getElem?_eq_none (Nat.le_of_not_lt hge)] at ht
        exact Option.noConfusion ht
      have hget : ((fileLines f.bytes).map dropCR)[v.line - 1]? = some text := by
        unfold fileLines
        unfold scanLines at hlt ht
        rw [← hmore, List.getElem?_append_left hlt]
        exact ht
      rw [List.getElem?_map] at hget
      cases hraw : (fileLines f.bytes)[v.line - 1]? with
      | none => rw [hraw] at hget; exact Option.noConfusion hget
      | some raw =>
        rw [hraw] at hget
        simp only [Option.map_some', Option.some.injEq] at hget
        exact ⟨raw, rfl, by rw [hget, hlen], by rw [hlen]; exact hlong⟩
  · refine ⟨[], ?_, List.Pairwise.nil, by simp⟩
    rw [callback_file_skip cfg path n f st, List.append_nil]
    by_cases hm : matchesExt cfg.extensionSet path = true
    · exact Or.inr (fun ho => h ⟨hm, ho⟩)
    · exact Or.inl (by simpa using hm)

end Longlocs
